import Mathlib

/-!
Verification of `cjdns-admin/src/func_args.rs` (remote function argument list).

The Rust source defines:
  * `ArgValue` — enum with variants `Int(i64)`, `String(String)`, `Json(serde_json::Value)`;
  * `ArgValues(BTreeMap<ArgName, ArgValue>)` with `new` and `add` (= `BTreeMap::insert`);
  * `impl Serialize for ArgValues` walking the map in `BTreeMap` iteration order
    (ascending lexicographic key order) and emitting each entry.

We embed the `BTreeMap` by its observable behaviour: an association list kept in
strictly ascending key order, with `insert` the order-preserving insert-or-replace.
`BTreeMap<String, _>` orders keys by Rust `String`'s `Ord`, i.e. byte-wise
lexicographic order of the UTF-8 encoding, which coincides with code-point
lexicographic order; we use the code-point order on `List Char`.

The tests serialize through the bencode format (`bencode::to_bytes`), whose encoder
is not part of this source file; its byte-level behaviour is modelled below from the
specification and pinned exactly by the expected byte strings in the in-source tests.
-/

/-- Modelled from the spec: `serde_json::Value` (the `Structured(JSON-like tree)`
payload), which is not part of this source file. Per the spec it is recursively
composed of null, booleans, numbers, strings, ordered sequences, and string-keyed
mappings whose key order is significant to the encoder (order-preserving
representation). Numbers are modelled as integers: the claims and the in-source
tests exercise only integer numerics, and the bencode target has no float. -/
inductive JsonValue : Type where
  | null : JsonValue
  | bool (b : Bool) : JsonValue
  | num (n : Int) : JsonValue
  | str (s : String) : JsonValue
  | arr (xs : List JsonValue) : JsonValue
  | obj (kvs : List (String × JsonValue)) : JsonValue
deriving Repr

/-- Rust `enum ArgValue { Int(i64), String(String), Json(JsonValue) }`. -/
inductive ArgValue : Type where
  | Int (i : Int) : ArgValue
  | String (s : String) : ArgValue
  | Json (j : JsonValue) : ArgValue
deriving Repr

/-- Rust `impl From<i64> for ArgValue`. -/
def argValueFromI64 (value : Int) : ArgValue := ArgValue.Int value

/-- Rust `impl From<String> for ArgValue`. -/
def argValueFromString (value : String) : ArgValue := ArgValue.String value

/-- Rust `impl From<&str> for ArgValue` (uses `value.to_string()`, which copies the
same character content into an owned string). -/
def argValueFromStrSlice (value : String) : ArgValue := ArgValue.String value

/-- Rust `impl From<JsonValue> for ArgValue`. -/
def argValueFromJson (value : JsonValue) : ArgValue := ArgValue.Json value

/-- Code-point lexicographic strict order on character lists: the observable
order of Rust `String`'s `Ord` (byte-wise lexicographic on UTF-8, which agrees
with code-point order). -/
def lexLt : List Char → List Char → Bool
  | _, [] => false
  | [], _ :: _ => true
  | a :: as, b :: bs =>
    if a.toNat < b.toNat then true
    else if b.toNat < a.toNat then false
    else lexLt as bs

/-- Strict key order used by `BTreeMap<String, _>`. -/
def keyLt (a b : String) : Bool := lexLt a.data b.data

/-- Observable behaviour of `BTreeMap::insert` on the sorted entry list:
insert `(k, v)` at its ordered position, replacing an existing entry with
key `k`. -/
def insertSorted (k : String) (v : ArgValue) :
    List (String × ArgValue) → List (String × ArgValue)
  | [] => [(k, v)]
  | (k', v') :: rest =>
    if keyLt k k' then (k, v) :: (k', v') :: rest
    else if k = k' then (k, v) :: rest
    else (k', v') :: insertSorted k v rest

/-- Rust `struct ArgValues(BTreeMap<ArgName, ArgValue>)`: the wrapped map, observed
as its iteration sequence (ascending key order). -/
structure ArgValues : Type where
  entries : List (String × ArgValue)
deriving Repr

/-- Constructor `ArgValues::new()`: — the empty map. -/
def ArgValues.new : ArgValues := ⟨[]⟩

/-- Derived `Default` on `ArgValues` — wraps `BTreeMap::default()`, the empty map. -/
def ArgValues.mkDefault : ArgValues := ⟨[]⟩

/-- Method `ArgValues::add` — `map.insert(name.into(), value.into())`. -/
def ArgValues.add (m : ArgValues) (name : String) (value : ArgValue) : ArgValues :=
  ⟨insertSorted name value m.entries⟩

/-- A map built by `new()` followed by a sequence of `add` calls. -/
def buildFrom (calls : List (String × ArgValue)) : ArgValues :=
  calls.foldl (fun m kv => m.add kv.1 kv.2) ArgValues.new

/-- The sortedness invariant maintained by `BTreeMap`: entries strictly
ascending by key. -/
def SortedEntries (l : List (String × ArgValue)) : Prop :=
  l.Pairwise (fun p q => keyLt p.1 q.1 = true)

/-- A `BTreeMap::get`-style lookup on the entry list (first match by key). -/
def lookupArg (k : String) : List (String × ArgValue) → Option ArgValue
  | [] => none
  | (k', v) :: rest => if k = k' then some v else lookupArg k rest

/-- Modelled from the spec: the bencode string encoder (the `bencode` crate is not
part of this source file) — a string is emitted as its byte length, a colon, and
the raw bytes, e.g. `3:foo`. -/
def bencStr (s : String) : String := toString s.utf8ByteSize ++ ":" ++ s

/-- Modelled from the spec: the bencode integer encoder — a signed decimal
literal between `i` and `e`, e.g. `i42e`, `i-42e`. -/
def bencInt (i : Int) : String := "i" ++ toString i ++ "e"

mutual
/-- Modelled from the spec: recursive bencode encoding of a structured JSON
value — sequences as lists (`l…e`) preserving element order, mappings as
dictionaries (`d…e`) preserving the value's own key order, scalars per the
string/integer rules. The format has no native bool/null; per the spec's noted
convention booleans degrade to integers 0/1 and null to the empty string
(these cases are exercised by no claim and no in-source test). -/
def bencJson : JsonValue → String
  | JsonValue.null => bencStr ""
  | JsonValue.bool b => bencInt (if b then 1 else 0)
  | JsonValue.num n => bencInt n
  | JsonValue.str s => bencStr s
  | JsonValue.arr xs => "l" ++ bencJsonList xs ++ "e"
  | JsonValue.obj kvs => "d" ++ bencJsonObj kvs ++ "e"

/-- Elements of a sequence, encoded in order. -/
def bencJsonList : List JsonValue → String
  | [] => ""
  | x :: xs => bencJson x ++ bencJsonList xs

/-- Entries of a structured mapping, encoded in the mapping's own order. -/
def bencJsonObj : List (String × JsonValue) → String
  | [] => ""
  | (k, v) :: rest => bencStr k ++ bencJson v ++ bencJsonObj rest
end

/-- One entry of the top-level dictionary: the key as a bencode string, then the
value dispatched on its variant exactly as in the `match` of
`impl Serialize for ArgValues`. -/
def bencEntry (kv : String × ArgValue) : String :=
  bencStr kv.1 ++
    match kv.2 with
    | ArgValue.Int i => bencInt i
    | ArgValue.String s => bencStr s
    | ArgValue.Json j => bencJson j

/-- The entry loop of `impl Serialize for ArgValues`: entries rendered one
after another, in iteration order. -/
def serializeEntriesStr : List (String × ArgValue) → String
  | [] => ""
  | kv :: rest => bencEntry kv ++ serializeEntriesStr rest

/-- The `impl Serialize for ArgValues`, instantiated at the bencode serializer used
by the in-source tests: `serialize_map` opens the dictionary, each entry is
emitted in iteration order, `end` closes it. -/
def serializeArgs (m : ArgValues) : String :=
  "d" ++ serializeEntriesStr m.entries ++ "e"

/-- Number of entries stored under key `k`. -/
def countKey (k : String) : List (String × ArgValue) → Nat
  | [] => 0
  | (k', _) :: rest => (if k' = k then 1 else 0) + countKey k rest

/-- Method `Serialize::serialize` borrows the map immutably (`&self`): in the embedding
the serialization step yields the produced bytes alongside the untouched map. -/
def serializeBorrowed (m : ArgValues) : String × ArgValues := (serializeArgs m, m)

/-- Key lookup in a structured mapping (the map's `get` by key; keys are unique
in any mapping produced by a JSON representation). -/
def jlookup (k : String) : List (String × JsonValue) → Option JsonValue
  | [] => none
  | (k', v) :: rest => if k = k' then some v else jlookup k rest

mutual
/-- Modelled from the spec: `PartialEq` on structured JSON values — same variant
and structurally equal payload, where two mappings are equal when they have the
same size and each key of the first maps to an equal value in the second
(key order irrelevant to equality, though significant to encoding). -/
def jsonEq : JsonValue → JsonValue → Bool
  | JsonValue.null, JsonValue.null => true
  | JsonValue.bool a, JsonValue.bool b => a == b
  | JsonValue.num a, JsonValue.num b => a == b
  | JsonValue.str a, JsonValue.str b => a == b
  | JsonValue.arr a, JsonValue.arr b => jsonEqList a b
  | JsonValue.obj a, JsonValue.obj b => a.length == b.length && jsonEqObjSub a b
  | _, _ => false

/-- Pointwise equality of two sequences. -/
def jsonEqList : List JsonValue → List JsonValue → Bool
  | [], [] => true
  | x :: xs, y :: ys => jsonEq x y && jsonEqList xs ys
  | _, _ => false

/-- Every entry of the first mapping is matched by key in the second. -/
def jsonEqObjSub : List (String × JsonValue) → List (String × JsonValue) → Bool
  | [], _ => true
  | (k, v) :: rest, b =>
    (match jlookup k b with
     | some w => jsonEq v w
     | none => false) && jsonEqObjSub rest b
end

/-- Derived `PartialEq` on `ArgValue`: same variant, equal payload
(`jsonEq` for the structured payload). -/
def argValueEq : ArgValue → ArgValue → Bool
  | ArgValue.Int a, ArgValue.Int b => a == b
  | ArgValue.String a, ArgValue.String b => a == b
  | ArgValue.Json a, ArgValue.Json b => jsonEq a b
  | _, _ => false

mutual
/-- The spec's characterisation of structured-value equality, stated as an
inductive relation: deep structural equality with the order of keys inside
mappings irrelevant (each entry of the first mapping is matched by key in the
second, sizes equal). -/
inductive JsonEquiv : JsonValue → JsonValue → Prop where
  | null : JsonEquiv JsonValue.null JsonValue.null
  | bool : ∀ b, JsonEquiv (JsonValue.bool b) (JsonValue.bool b)
  | num : ∀ n, JsonEquiv (JsonValue.num n) (JsonValue.num n)
  | str : ∀ s, JsonEquiv (JsonValue.str s) (JsonValue.str s)
  | arr : ∀ {as bs : List JsonValue}, JsonEquivList as bs →
      JsonEquiv (JsonValue.arr as) (JsonValue.arr bs)
  | obj : ∀ {as bs : List (String × JsonValue)}, as.length = bs.length →
      JsonEquivObjSub as bs →
      JsonEquiv (JsonValue.obj as) (JsonValue.obj bs)

/-- Two sequences are equivalent pointwise, in order. -/
inductive JsonEquivList : List JsonValue → List JsonValue → Prop where
  | nil : JsonEquivList [] []
  | cons : ∀ {x y : JsonValue} {xs ys : List JsonValue}, JsonEquiv x y →
      JsonEquivList xs ys → JsonEquivList (x :: xs) (y :: ys)

/-- Every entry of the first mapping has, by key, an equivalent value in the
second — irrespective of entry order. -/
inductive JsonEquivObjSub : List (String × JsonValue) → List (String × JsonValue) → Prop where
  | nil : ∀ {b}, JsonEquivObjSub [] b
  | cons : ∀ {k : String} {v w : JsonValue} {rest b}, jlookup k b = some w →
      JsonEquiv v w → JsonEquivObjSub rest b → JsonEquivObjSub ((k, v) :: rest) b
end

/-- The spec's characterisation of argument-value equality: same variant tag,
byte-exact payload for the integer and string variants, deep structural
equality modulo mapping-key order for the structured variant. -/
inductive ArgValueEquiv : ArgValue → ArgValue → Prop where
  | int : ∀ i, ArgValueEquiv (ArgValue.Int i) (ArgValue.Int i)
  | str : ∀ s, ArgValueEquiv (ArgValue.String s) (ArgValue.String s)
  | json : ∀ {a b}, JsonEquiv a b → ArgValueEquiv (ArgValue.Json a) (ArgValue.Json b)

/-- The serde `Serializer`/`SerializeMap` interface as used by
`impl Serialize for ArgValues`: `serialize_map` opens a map given the optional
length, `serialize_entry` consumes one key/value pair (mutation of the encoder
is modelled by state passing), `end` finishes. Any step may fail with an error
of type `E`. -/
structure MapSerializer (E Ok St : Type) : Type where
  serializeMap : Option Nat → Except E St
  entryInt : St → String → Int → Except E St
  entryStr : St → String → String → Except E St
  entryJson : St → String → JsonValue → Except E St
  endMap : St → Except E Ok

/-- One iteration of the `for (k, v) in map` loop: the `match` on the value's
variant, each arm calling `serialize_entry`. -/
def serializeEntryStep {E Ok St : Type} (s : MapSerializer E Ok St) (st : St) :
    String × ArgValue → Except E St
  | (k, ArgValue.Int i) => s.entryInt st k i
  | (k, ArgValue.String v) => s.entryStr st k v
  | (k, ArgValue.Json j) => s.entryJson st k j

/-- The `impl Serialize for ArgValues` over an arbitrary serializer: open the map
with its length, fold the entry loop (each `?` propagating the first error),
then `end`. -/
def serializeArgValues {E Ok St : Type} (s : MapSerializer E Ok St) (m : ArgValues) :
    Except E Ok := do
  let st0 ← s.serializeMap (some m.entries.length)
  let st ← m.entries.foldlM (fun st kv => serializeEntryStep s st kv) st0
  s.endMap st

/-- The bencode serializer of the in-source tests, as a `MapSerializer`: pure
string accumulation, no error (`E := Empty`). -/
def bencMapSerializer : MapSerializer Empty String String where
  serializeMap _ := Except.ok "d"
  entryInt st k i := Except.ok (st ++ bencStr k ++ bencInt i)
  entryStr st k v := Except.ok (st ++ bencStr k ++ bencStr v)
  entryJson st k j := Except.ok (st ++ bencStr k ++ bencJson j)
  endMap st := Except.ok (st ++ "e")

/-- A downstream serializer whose integer-entry step fails (a failing byte
sink), used to exhibit error propagation on a concrete run. -/
def failingSerializer : MapSerializer Nat Unit Unit where
  serializeMap _ := Except.ok ()
  entryInt _ _ _ := Except.error 7
  entryStr st _ _ := Except.ok st
  entryJson st _ _ := Except.ok st
  endMap _ := Except.ok ()

/-! ### Order lemmas for the key order -/

theorem char_eq_of_toNat_eq {a b : Char} (h : a.toNat = b.toNat) : a = b := by
  apply Char.ext
  have hv : a.val.toNat = b.val.toNat := h
  exact UInt32.toNat.inj hv

theorem lexLt_irrefl (l : List Char) : lexLt l l = false := by
  induction l with
  | nil => rfl
  | cons a as ih => simp [lexLt, ih]

theorem lexLt_cons_elim {x y : Char} {xs ys : List Char}
    (h : lexLt (x :: xs) (y :: ys) = true) :
    x.toNat < y.toNat ∨ (x.toNat = y.toNat ∧ lexLt xs ys = true) := by
  simp only [lexLt] at h
  by_cases hxy : x.toNat < y.toNat
  · exact Or.inl hxy
  · by_cases hyx : y.toNat < x.toNat
    · simp [hxy, hyx] at h
    · have heq : x.toNat = y.toNat :=
        Nat.le_antisymm (Nat.le_of_not_lt hyx) (Nat.le_of_not_lt hxy)
      simp only [hxy, if_false, hyx, if_false] at h
      exact Or.inr ⟨heq, h⟩

theorem lexLt_cons_of_lt {x y : Char} {xs ys : List Char} (h : x.toNat < y.toNat) :
    lexLt (x :: xs) (y :: ys) = true := by
  simp [lexLt, h]

theorem lexLt_cons_of_eq {x y : Char} {xs ys : List Char} (heq : x.toNat = y.toNat)
    (h : lexLt xs ys = true) : lexLt (x :: xs) (y :: ys) = true := by
  simp [lexLt, heq, h]

theorem lexLt_trans {a b c : List Char} (h1 : lexLt a b = true) (h2 : lexLt b c = true) :
    lexLt a c = true := by
  induction a generalizing b c with
  | nil =>
    cases b with
    | nil => simp [lexLt] at h1
    | cons y ys =>
      cases c with
      | nil => simp [lexLt] at h2
      | cons z zs => simp [lexLt]
  | cons x xs ih =>
    cases b with
    | nil => simp [lexLt] at h1
    | cons y ys =>
      cases c with
      | nil => simp [lexLt] at h2
      | cons z zs =>
        rcases lexLt_cons_elim h1 with hxy | ⟨hxy, hxs⟩ <;>
          rcases lexLt_cons_elim h2 with hyz | ⟨hyz, hys⟩
        · exact lexLt_cons_of_lt (Nat.lt_trans hxy hyz)
        · exact lexLt_cons_of_lt (hyz ▸ hxy)
        · exact lexLt_cons_of_lt (hxy ▸ hyz)
        · exact lexLt_cons_of_eq (hxy.trans hyz) (ih hxs hys)

theorem lexLt_trichotomy (a b : List Char) :
    lexLt a b = true ∨ a = b ∨ lexLt b a = true := by
  induction a generalizing b with
  | nil =>
    cases b with
    | nil => exact Or.inr (Or.inl rfl)
    | cons y ys => exact Or.inl (by simp [lexLt])
  | cons x xs ih =>
    cases b with
    | nil => exact Or.inr (Or.inr (by simp [lexLt]))
    | cons y ys =>
      rcases Nat.lt_trichotomy x.toNat y.toNat with hlt | heq | hgt
      · exact Or.inl (by simp [lexLt, hlt])
      · have hx : x = y := char_eq_of_toNat_eq heq
        subst hx
        rcases ih ys with h | h | h
        · exact Or.inl (by simp [lexLt, h])
        · exact Or.inr (Or.inl (by rw [h]))
        · exact Or.inr (Or.inr (by simp [lexLt, h]))
      · exact Or.inr (Or.inr (by simp [lexLt, hgt]))

theorem keyLt_irrefl (s : String) : keyLt s s = false := lexLt_irrefl s.data

theorem keyLt_trans {a b c : String} (h1 : keyLt a b = true) (h2 : keyLt b c = true) :
    keyLt a c = true := lexLt_trans h1 h2

theorem keyLt_trichotomy (a b : String) : keyLt a b = true ∨ a = b ∨ keyLt b a = true := by
  rcases lexLt_trichotomy a.data b.data with h | h | h
  · exact Or.inl h
  · exact Or.inr (Or.inl (String.ext h))
  · exact Or.inr (Or.inr h)

theorem keyLt_ne {a b : String} (h : keyLt a b = true) : a ≠ b := by
  intro hab
  rw [hab, keyLt_irrefl] at h
  exact Bool.false_ne_true h

theorem keyLt_of_not_lt_of_ne {a b : String} (h1 : ¬ keyLt a b = true) (h2 : a ≠ b) :
    keyLt b a = true := by
  rcases keyLt_trichotomy a b with h | h | h
  · exact absurd h h1
  · exact absurd h h2
  · exact h

/-! ### Lemmas about the ordered insert modelling `BTreeMap::insert` -/

theorem mem_insertSorted {x : String × ArgValue} {k : String} {v : ArgValue}
    {l : List (String × ArgValue)} (h : x ∈ insertSorted k v l) :
    x = (k, v) ∨ x ∈ l := by
  induction l with
  | nil =>
    simp [insertSorted] at h
    exact Or.inl h
  | cons p rest ih =>
    obtain ⟨k', v'⟩ := p
    simp only [insertSorted] at h
    by_cases h1 : keyLt k k' = true
    · rw [if_pos h1] at h
      rcases List.mem_cons.mp h with h | h
      · exact Or.inl h
      · exact Or.inr h
    · rw [if_neg h1] at h
      by_cases h2 : k = k'
      · rw [if_pos h2] at h
        rcases List.mem_cons.mp h with h | h
        · exact Or.inl h
        · exact Or.inr (List.mem_cons_of_mem _ h)
      · rw [if_neg h2] at h
        rcases List.mem_cons.mp h with h | h
        · exact Or.inr (h ▸ List.mem_cons_self _ _)
        · rcases ih h with h3 | h3
          · exact Or.inl h3
          · exact Or.inr (List.mem_cons_of_mem _ h3)

theorem insertSorted_sorted {k : String} {v : ArgValue} {l : List (String × ArgValue)}
    (h : SortedEntries l) : SortedEntries (insertSorted k v l) := by
  induction l with
  | nil => simp [insertSorted, SortedEntries]
  | cons p rest ih =>
    obtain ⟨k', v'⟩ := p
    rw [SortedEntries, List.pairwise_cons] at h
    obtain ⟨hall, hrest⟩ := h
    simp only [insertSorted]
    by_cases h1 : keyLt k k' = true
    · rw [if_pos h1]
      rw [SortedEntries, List.pairwise_cons]
      refine ⟨?_, ?_⟩
      · intro q hq
        rcases List.mem_cons.mp hq with h2 | h2
        · rw [h2]; exact h1
        · exact keyLt_trans h1 (hall q h2)
      · exact List.pairwise_cons.mpr ⟨hall, hrest⟩
    · rw [if_neg h1]
      by_cases h2 : k = k'
      · rw [if_pos h2]
        rw [SortedEntries, List.pairwise_cons]
        exact ⟨fun q hq => h2 ▸ hall q hq, hrest⟩
      · rw [if_neg h2]
        rw [SortedEntries, List.pairwise_cons]
        refine ⟨?_, ih hrest⟩
        intro q hq
        rcases mem_insertSorted hq with h3 | h3
        · rw [h3]
          exact keyLt_of_not_lt_of_ne h1 h2
        · exact hall q h3

theorem buildFrom_cons (kv : String × ArgValue) (calls : List (String × ArgValue)) :
    ∀ m : ArgValues,
      (kv :: calls).foldl (fun m p => m.add p.1 p.2) m =
        calls.foldl (fun m p => m.add p.1 p.2) (m.add kv.1 kv.2) := by
  intro m
  rfl

theorem foldl_add_sorted (calls : List (String × ArgValue)) :
    ∀ m : ArgValues, SortedEntries m.entries →
      SortedEntries ((calls.foldl (fun m p => m.add p.1 p.2) m).entries) := by
  induction calls with
  | nil => intro m hm; exact hm
  | cons kv rest ih =>
    intro m hm
    rw [buildFrom_cons]
    exact ih (m.add kv.1 kv.2) (insertSorted_sorted hm)

theorem buildFrom_sorted (calls : List (String × ArgValue)) :
    SortedEntries (buildFrom calls).entries := by
  apply foldl_add_sorted
  simp [ArgValues.new, SortedEntries]

/-! ### Last-write-wins and frame lemmas -/

theorem insertSorted_overwrite (k : String) (v1 v2 : ArgValue)
    (l : List (String × ArgValue)) :
    insertSorted k v2 (insertSorted k v1 l) = insertSorted k v2 l := by
  induction l with
  | nil => simp [insertSorted, keyLt_irrefl]
  | cons p rest ih =>
    obtain ⟨k', v'⟩ := p
    by_cases h1 : keyLt k k' = true
    · simp [insertSorted, h1, keyLt_irrefl]
    · by_cases h2 : k = k'
      · simp [insertSorted, h1, h2, keyLt_irrefl]
      · simp [insertSorted, h1, h2, ih]

theorem countKey_eq_zero {k : String} {l : List (String × ArgValue)}
    (h : ∀ q ∈ l, q.1 ≠ k) : countKey k l = 0 := by
  induction l with
  | nil => rfl
  | cons p rest ih =>
    obtain ⟨k', v'⟩ := p
    have hp : k' ≠ k := h (k', v') (List.mem_cons_self _ _)
    simp only [countKey, if_neg hp, Nat.zero_add]
    exact ih fun q hq => h q (List.mem_cons_of_mem _ hq)

theorem countKey_insertSorted {k : String} {v : ArgValue} {l : List (String × ArgValue)}
    (h : SortedEntries l) : countKey k (insertSorted k v l) = 1 := by
  induction l with
  | nil => simp [insertSorted, countKey]
  | cons p rest ih =>
    obtain ⟨k', v'⟩ := p
    rw [SortedEntries, List.pairwise_cons] at h
    obtain ⟨hall, hrest⟩ := h
    by_cases h1 : keyLt k k' = true
    · have hz : countKey k ((k', v') :: rest) = 0 := by
        apply countKey_eq_zero
        intro q hq
        rcases List.mem_cons.mp hq with h2 | h2
        · rw [h2]
          exact fun he => keyLt_ne h1 he.symm
        · exact fun he => keyLt_ne (keyLt_trans h1 (hall q h2)) he.symm
      simp only [insertSorted, if_pos h1, countKey, if_pos rfl, hz]
      simp only [countKey] at hz
      simp [hz]
    · by_cases h2 : k = k'
      · have hz : countKey k rest = 0 := by
          apply countKey_eq_zero
          intro q hq
          have hq1 : keyLt k q.1 = true := h2 ▸ hall q hq
          exact fun he => keyLt_ne hq1 he.symm
        simp only [insertSorted, if_neg h1, if_pos h2, countKey, if_pos rfl, hz]
        simp
      · have hne : k' ≠ k := fun he => h2 he.symm
        simp only [insertSorted, if_neg h1, if_neg h2, countKey, if_neg hne,
          Nat.zero_add]
        exact ih hrest

theorem lookupArg_insertSorted_ne {k name : String} (h : k ≠ name) (v : ArgValue)
    (l : List (String × ArgValue)) :
    lookupArg k (insertSorted name v l) = lookupArg k l := by
  induction l with
  | nil =>
    simp only [insertSorted, lookupArg]
    rw [if_neg h]
  | cons p rest ih =>
    obtain ⟨k', v'⟩ := p
    simp only [insertSorted]
    by_cases h1 : keyLt name k' = true
    · rw [if_pos h1]
      simp only [lookupArg]
      rw [if_neg h]
    · rw [if_neg h1]
      by_cases h2 : name = k'
      · rw [if_pos h2]
        simp only [lookupArg]
        rw [if_neg h, if_neg (h2 ▸ h)]
      · rw [if_neg h2]
        simp only [lookupArg]
        by_cases h3 : k = k'
        · rw [if_pos h3, if_pos h3]
        · rw [if_neg h3, if_neg h3]
          exact ih

theorem mem_insertSorted_of_ne {k name : String} {w v : ArgValue}
    {l : List (String × ArgValue)} (h : k ≠ name) (hm : (k, w) ∈ l) :
    (k, w) ∈ insertSorted name v l := by
  induction l with
  | nil => exact absurd hm (List.not_mem_nil _)
  | cons p rest ih =>
    obtain ⟨k', v'⟩ := p
    simp only [insertSorted]
    by_cases h1 : keyLt name k' = true
    · rw [if_pos h1]
      exact List.mem_cons_of_mem _ hm
    · rw [if_neg h1]
      by_cases h2 : name = k'
      · rw [if_pos h2]
        rcases List.mem_cons.mp hm with h3 | h3
        · exact absurd (congrArg Prod.fst h3) (by simpa using h2 ▸ h)
        · exact List.mem_cons_of_mem _ h3
      · rw [if_neg h2]
        rcases List.mem_cons.mp hm with h3 | h3
        · exact h3 ▸ List.mem_cons_self _ _
        · exact List.mem_cons_of_mem _ (ih h3)

theorem sortedEntries_nodup {l : List (String × ArgValue)} (h : SortedEntries l) :
    l.Nodup :=
  h.imp fun hpq he => keyLt_ne hpq (congrArg Prod.fst he)

theorem sortedEntries_ext {a b : List (String × ArgValue)} (ha : SortedEntries a)
    (hb : SortedEntries b) (h : ∀ x, x ∈ a ↔ x ∈ b) : a = b := by
  have hperm : a.Perm b :=
    (List.perm_ext_iff_of_nodup (sortedEntries_nodup ha) (sortedEntries_nodup hb)).mpr h
  haveI : IsAntisymm (String × ArgValue) (fun p q => keyLt p.1 q.1 = true) :=
    ⟨fun p q hpq hqp => by
      have := keyLt_trans hpq hqp
      rw [keyLt_irrefl] at this
      exact absurd this Bool.false_ne_true⟩
  exact List.eq_of_perm_of_sorted hperm ha hb

/-! ### Claims -/

/-- C1: for every sequence of `add` calls (any names, any values, any insertion
order, including re-insertions), the dictionary produced by serialization emits
its entries in iteration order and its top-level keys are in strictly ascending
lexicographic order of name. -/
theorem c1_keys_strictly_sorted (calls : List (String × ArgValue)) :
    serializeArgs (buildFrom calls) =
      "d" ++ serializeEntriesStr (buildFrom calls).entries ++ "e" ∧
    List.Pairwise (fun a b : String => keyLt a b = true)
      ((buildFrom calls).entries.map Prod.fst) := by
  refine ⟨rfl, ?_⟩
  exact (buildFrom_sorted calls).map Prod.fst (fun a b h => h)

/-- C2: on any well-formed map, `add(name, v1)` then `add(name, v2)` yields the
same map as `add(name, v2)` alone, it serializes identically, and the result
holds exactly one entry for `name` (last-write-wins). -/
theorem c2_last_write_wins (m : ArgValues) (name : String) (v1 v2 : ArgValue)
    (h : SortedEntries m.entries) :
    (m.add name v1).add name v2 = m.add name v2 ∧
    serializeArgs ((m.add name v1).add name v2) = serializeArgs (m.add name v2) ∧
    countKey name ((m.add name v1).add name v2).entries = 1 := by
  have h1 : (m.add name v1).add name v2 = m.add name v2 :=
    congrArg ArgValues.mk (insertSorted_overwrite name v1 v2 m.entries)
  refine ⟨h1, congrArg serializeArgs h1, ?_⟩
  rw [h1]
  exact countKey_insertSorted h

/-- Witness for C2 at a concrete map and values. -/
theorem c2_last_write_wins_witness :
    (ArgValues.new.add "k" (ArgValue.Int 1)).add "k" (ArgValue.Int 2) =
        ArgValues.new.add "k" (ArgValue.Int 2) ∧
    serializeArgs ((ArgValues.new.add "k" (ArgValue.Int 1)).add "k" (ArgValue.Int 2)) =
        serializeArgs (ArgValues.new.add "k" (ArgValue.Int 2)) ∧
    countKey "k" ((ArgValues.new.add "k" (ArgValue.Int 1)).add "k"
        (ArgValue.Int 2)).entries = 1 :=
  c2_last_write_wins ArgValues.new "k" (ArgValue.Int 1) (ArgValue.Int 2) List.Pairwise.nil

/-- C3: serialization is deterministic — two well-formed maps holding the same
set of entries produce byte-identical output, however each was constructed, and
serializing the same map twice is the same pure function applied twice. -/
theorem c3_serialization_deterministic (a b : ArgValues)
    (ha : SortedEntries a.entries) (hb : SortedEntries b.entries)
    (h : ∀ x : String × ArgValue, x ∈ a.entries ↔ x ∈ b.entries) :
    serializeArgs a = serializeArgs b ∧ serializeArgs a = serializeArgs a := by
  have he : a.entries = b.entries := sortedEntries_ext ha hb h
  refine ⟨?_, rfl⟩
  simp only [serializeArgs, he]

/-- Witness for C3: the same two entries inserted in two different orders
serialize to the same bytes. -/
theorem c3_serialization_deterministic_witness :
    serializeArgs (buildFrom [("foo", ArgValue.String "bar"), ("boo", ArgValue.Int 42)]) =
      serializeArgs (buildFrom [("boo", ArgValue.Int 42), ("foo", ArgValue.String "bar")]) ∧
    serializeArgs (buildFrom [("foo", ArgValue.String "bar"), ("boo", ArgValue.Int 42)]) =
      serializeArgs (buildFrom [("foo", ArgValue.String "bar"), ("boo", ArgValue.Int 42)]) :=
  c3_serialization_deterministic
    (buildFrom [("foo", ArgValue.String "bar"), ("boo", ArgValue.Int 42)])
    (buildFrom [("boo", ArgValue.Int 42), ("foo", ArgValue.String "bar")])
    (buildFrom_sorted _) (buildFrom_sorted _) (fun _ => Iff.rfl)

/-- C6: every lift into `ArgValue` is a total function performing no validation:
lifting 42 gives `Int 42`, lifting -42 gives `Int (-42)`, the owned-string and
string-slice lifts agree on every string and produce the `String` variant
unchanged, and the structured lift wraps its input unchanged. -/
theorem c6_lifts_total :
    argValueFromI64 42 = ArgValue.Int 42 ∧
    argValueFromI64 (-42) = ArgValue.Int (-42) ∧
    (∀ i : Int, argValueFromI64 i = ArgValue.Int i) ∧
    (∀ s : String, argValueFromString s = argValueFromStrSlice s ∧
      argValueFromString s = ArgValue.String s) ∧
    (∀ j : JsonValue, argValueFromJson j = ArgValue.Json j) :=
  ⟨rfl, rfl, fun _ => rfl, fun _ => ⟨rfl, rfl⟩, fun _ => rfl⟩

/-- C8: the map built by `new()`, `add("foo","bar")`, `add("boo",42)`,
`add("zoo",-42)` serializes to `d3:booi42e3:foo3:bar3:zooi-42ee`: keys in order
`boo`, `foo`, `zoo`, with `boo` mapped to integer 42, `foo` to string `"bar"`,
`zoo` to integer -42. -/
theorem c8_example_serialization :
    serializeArgs (((ArgValues.new.add "foo" (ArgValue.String "bar")).add "boo"
        (ArgValue.Int 42)).add "zoo" (ArgValue.Int (-42))) =
      "d3:booi42e3:foo3:bar3:zooi-42ee" ∧
    (((ArgValues.new.add "foo" (ArgValue.String "bar")).add "boo"
        (ArgValue.Int 42)).add "zoo" (ArgValue.Int (-42))).entries.map Prod.fst =
      ["boo", "foo", "zoo"] ∧
    lookupArg "boo" (((ArgValues.new.add "foo" (ArgValue.String "bar")).add "boo"
        (ArgValue.Int 42)).add "zoo" (ArgValue.Int (-42))).entries =
      some (ArgValue.Int 42) ∧
    lookupArg "foo" (((ArgValues.new.add "foo" (ArgValue.String "bar")).add "boo"
        (ArgValue.Int 42)).add "zoo" (ArgValue.Int (-42))).entries =
      some (ArgValue.String "bar") ∧
    lookupArg "zoo" (((ArgValues.new.add "foo" (ArgValue.String "bar")).add "boo"
        (ArgValue.Int 42)).add "zoo" (ArgValue.Int (-42))).entries =
      some (ArgValue.Int (-42)) :=
  ⟨rfl, rfl, rfl, rfl, rfl⟩

/-- C9: frame conditions — `add(name, value)` leaves every entry under a
different key unchanged (same key, same value, same lookup result), and
serialization is read-only with respect to the map. -/
theorem c9_frame (m : ArgValues) (name : String) (v : ArgValue) (k : String)
    (h : k ≠ name) :
    lookupArg k (m.add name v).entries = lookupArg k m.entries ∧
    (∀ w : ArgValue, (k, w) ∈ m.entries → (k, w) ∈ (m.add name v).entries) ∧
    (serializeBorrowed m).2 = m :=
  ⟨lookupArg_insertSorted_ne h v m.entries,
   fun _ hw => mem_insertSorted_of_ne h hw, rfl⟩

/-- Witness for C9 at a concrete map, key and value. -/
theorem c9_frame_witness :
    ("a" : String) ≠ "b" ∧
    (lookupArg "a" ((buildFrom [("a", ArgValue.Int 1)]).add "b" (ArgValue.Int 2)).entries =
        lookupArg "a" (buildFrom [("a", ArgValue.Int 1)]).entries ∧
      (∀ w : ArgValue, ("a", w) ∈ (buildFrom [("a", ArgValue.Int 1)]).entries →
        ("a", w) ∈ ((buildFrom [("a", ArgValue.Int 1)]).add "b" (ArgValue.Int 2)).entries) ∧
      (serializeBorrowed (buildFrom [("a", ArgValue.Int 1)])).2 =
        buildFrom [("a", ArgValue.Int 1)]) :=
  ⟨by decide, c9_frame (buildFrom [("a", ArgValue.Int 1)]) "b" (ArgValue.Int 2) "a"
    (by decide)⟩

/-- C10: the empty map — produced by `new()`, and equally by the derived
`Default`, which equals `new()` — serializes to exactly the dictionary marker
followed by the terminator, the two bytes `de`, with no entries emitted. -/
theorem c10_empty_serialization :
    serializeArgs ArgValues.new = "de" ∧
    ArgValues.mkDefault = ArgValues.new ∧
    ArgValues.new.entries = [] :=
  ⟨rfl, rfl, rfl⟩

/-! ### Error behaviour of the generic serialization (C4) -/

theorem foldlM_except_ok_of_total {E St : Type}
    (f : St → (String × ArgValue) → Except E St) (l : List (String × ArgValue))
    (h : ∀ st kv, kv ∈ l → ∃ st2, f st kv = Except.ok st2) :
    ∀ st, ∃ st2, l.foldlM f st = Except.ok st2 := by
  induction l with
  | nil => exact fun st => ⟨st, rfl⟩
  | cons kv rest ih =>
    intro st
    obtain ⟨st2, hst2⟩ := h st kv (List.mem_cons_self _ _)
    obtain ⟨st3, hst3⟩ :=
      ih (fun st kv hkv => h st kv (List.mem_cons_of_mem _ hkv)) st2
    refine ⟨st3, ?_⟩
    rw [List.foldlM_cons, hst2]
    exact hst3

theorem foldlM_except_error {E St : Type}
    {f : St → (String × ArgValue) → Except E St} {l : List (String × ArgValue)}
    {st : St} {e : E} (h : l.foldlM f st = Except.error e) :
    ∃ st2 kv, kv ∈ l ∧ f st2 kv = Except.error e := by
  induction l generalizing st with
  | nil => exact Except.noConfusion h
  | cons kv rest ih =>
    rw [List.foldlM_cons] at h
    cases hf : f st kv with
    | error e2 =>
      rw [hf] at h
      rw [show ((Except.error e2 : Except E St) >>= fun init =>
        rest.foldlM f init) = Except.error e2 from rfl] at h
      injection h with he
      exact ⟨st, kv, List.mem_cons_self _ _, by rw [hf, he]⟩
    | ok st2 =>
      rw [hf] at h
      rw [show ((Except.ok st2 : Except E St) >>= fun init =>
        rest.foldlM f init) = rest.foldlM f st2 from rfl] at h
      obtain ⟨st3, kv2, hmem, hkv⟩ := ih h
      exact ⟨st3, kv2, List.mem_cons_of_mem _ hmem, hkv⟩

theorem foldlM_benc (l : List (String × ArgValue)) :
    ∀ pre : String,
      l.foldlM (fun st kv => serializeEntryStep bencMapSerializer st kv) pre =
        Except.ok (pre ++ serializeEntriesStr l) := by
  induction l with
  | nil =>
    intro pre
    have : pre ++ serializeEntriesStr [] = pre := by
      apply String.ext
      simp [serializeEntriesStr, String.data_append]
    rw [this]
    rfl
  | cons kv rest ih =>
    intro pre
    obtain ⟨k, v⟩ := kv
    rw [List.foldlM_cons]
    have hassoc : ∀ x : String, (pre ++ x) ++ serializeEntriesStr rest =
        pre ++ (x ++ serializeEntriesStr rest) := by
      intro x
      apply String.ext
      simp [String.data_append, List.append_assoc]
    cases v with
    | Int i =>
      rw [show serializeEntryStep bencMapSerializer pre (k, ArgValue.Int i) =
        Except.ok (pre ++ (bencStr k ++ bencInt i)) from by
          apply congrArg Except.ok
          apply String.ext
          simp [serializeEntryStep, bencMapSerializer, String.data_append]]
      rw [show ((Except.ok (pre ++ (bencStr k ++ bencInt i)) : Except Empty String) >>=
        fun init => rest.foldlM (fun st kv => serializeEntryStep bencMapSerializer st kv) init) =
        rest.foldlM (fun st kv => serializeEntryStep bencMapSerializer st kv)
          (pre ++ (bencStr k ++ bencInt i)) from rfl]
      rw [ih]
      apply congrArg Except.ok
      rw [hassoc]
      rfl
    | String sv =>
      rw [show serializeEntryStep bencMapSerializer pre (k, ArgValue.String sv) =
        Except.ok (pre ++ (bencStr k ++ bencStr sv)) from by
          apply congrArg Except.ok
          apply String.ext
          simp [serializeEntryStep, bencMapSerializer, String.data_append]]
      rw [show ((Except.ok (pre ++ (bencStr k ++ bencStr sv)) : Except Empty String) >>=
        fun init => rest.foldlM (fun st kv => serializeEntryStep bencMapSerializer st kv) init) =
        rest.foldlM (fun st kv => serializeEntryStep bencMapSerializer st kv)
          (pre ++ (bencStr k ++ bencStr sv)) from rfl]
      rw [ih]
      apply congrArg Except.ok
      rw [hassoc]
      rfl
    | Json j =>
      rw [show serializeEntryStep bencMapSerializer pre (k, ArgValue.Json j) =
        Except.ok (pre ++ (bencStr k ++ bencJson j)) from by
          apply congrArg Except.ok
          apply String.ext
          simp [serializeEntryStep, bencMapSerializer, String.data_append]]
      rw [show ((Except.ok (pre ++ (bencStr k ++ bencJson j)) : Except Empty String) >>=
        fun init => rest.foldlM (fun st kv => serializeEntryStep bencMapSerializer st kv) init) =
        rest.foldlM (fun st kv => serializeEntryStep bencMapSerializer st kv)
          (pre ++ (bencStr k ++ bencJson j)) from rfl]
      rw [ih]
      apply congrArg Except.ok
      rw [hassoc]
      rfl

theorem serializeArgValues_benc (m : ArgValues) :
    serializeArgValues bencMapSerializer m = Except.ok (serializeArgs m) := by
  rw [show serializeArgValues bencMapSerializer m =
    (m.entries.foldlM (fun st kv => serializeEntryStep bencMapSerializer st kv) "d" >>=
      fun st => bencMapSerializer.endMap st) from rfl]
  rw [foldlM_benc]
  rfl

/-- C4: serialization never fails when every downstream step succeeds (every
variant is representable — witnessed by the always-succeeding bencode
serializer, third conjunct); and when it fails with error `e`, that `e` is
exactly an error returned by a downstream step (`serialize_map`, a
`serialize_entry` call on one of the map's entries, or `end`) — the only error
path, propagated unchanged. -/
theorem c4_error_propagation {E Ok St : Type} (s : MapSerializer E Ok St)
    (m : ArgValues) :
    ((∀ n, ∃ st, s.serializeMap n = Except.ok st) →
      (∀ st kv, kv ∈ m.entries → ∃ st2, serializeEntryStep s st kv = Except.ok st2) →
      (∀ st, ∃ o, s.endMap st = Except.ok o) →
      ∃ o, serializeArgValues s m = Except.ok o) ∧
    (∀ e : E, serializeArgValues s m = Except.error e →
      s.serializeMap (some m.entries.length) = Except.error e ∨
      (∃ st kv, kv ∈ m.entries ∧ serializeEntryStep s st kv = Except.error e) ∨
      (∃ st, s.endMap st = Except.error e)) ∧
    serializeArgValues bencMapSerializer m = Except.ok (serializeArgs m) := by
  refine ⟨?_, ?_, serializeArgValues_benc m⟩
  · intro h1 h2 h3
    obtain ⟨st0, hst0⟩ := h1 (some m.entries.length)
    obtain ⟨st, hst⟩ :=
      foldlM_except_ok_of_total (fun st kv => serializeEntryStep s st kv) m.entries h2 st0
    obtain ⟨o, ho⟩ := h3 st
    refine ⟨o, ?_⟩
    rw [show serializeArgValues s m = (s.serializeMap (some m.entries.length) >>=
      fun st0 => m.entries.foldlM (fun st kv => serializeEntryStep s st kv) st0 >>=
        fun st => s.endMap st) from rfl]
    rw [hst0]
    rw [show ((Except.ok st0 : Except E St) >>= fun st0 =>
      m.entries.foldlM (fun st kv => serializeEntryStep s st kv) st0 >>=
        fun st => s.endMap st) =
      (m.entries.foldlM (fun st kv => serializeEntryStep s st kv) st0 >>=
        fun st => s.endMap st) from rfl]
    rw [hst]
    exact ho
  · intro e he
    rw [show serializeArgValues s m = (s.serializeMap (some m.entries.length) >>=
      fun st0 => m.entries.foldlM (fun st kv => serializeEntryStep s st kv) st0 >>=
        fun st => s.endMap st) from rfl] at he
    cases h0 : s.serializeMap (some m.entries.length) with
    | error e0 =>
      rw [h0] at he
      rw [show ((Except.error e0 : Except E St) >>= fun st0 =>
        m.entries.foldlM (fun st kv => serializeEntryStep s st kv) st0 >>=
          fun st => s.endMap st) = Except.error e0 from rfl] at he
      injection he with he0
      exact Or.inl (congrArg Except.error he0)
    | ok st0 =>
      rw [h0] at he
      rw [show ((Except.ok st0 : Except E St) >>= fun st0 =>
        m.entries.foldlM (fun st kv => serializeEntryStep s st kv) st0 >>=
          fun st => s.endMap st) =
        (m.entries.foldlM (fun st kv => serializeEntryStep s st kv) st0 >>=
          fun st => s.endMap st) from rfl] at he
      cases h1 : m.entries.foldlM (fun st kv => serializeEntryStep s st kv) st0 with
      | error e1 =>
        rw [h1] at he
        rw [show ((Except.error e1 : Except E St) >>= fun st => s.endMap st) =
          Except.error e1 from rfl] at he
        injection he with he1
        obtain ⟨st2, kv, hmem, hkv⟩ := foldlM_except_error h1
        exact Or.inr (Or.inl ⟨st2, kv, hmem, by rw [hkv, he1]⟩)
      | ok st =>
        rw [h1] at he
        rw [show ((Except.ok st : Except E St) >>= fun st => s.endMap st) =
          s.endMap st from rfl] at he
        exact Or.inr (Or.inr ⟨st, he⟩)

/-- C5: structured values serialize recursively — sequences as ordered lists
preserving element order exactly (the JSON array `[42, -42, "bar"]` yields a
three-element list in that order), mappings as dictionaries preserving the
structured value's own internal key order, not re-sorted, at every nesting
depth (shown both in general, on an unsorted two-key mapping, and on the
in-source test's nested document). -/
theorem c5_structured_serialization :
    (∀ xs : List JsonValue, bencJson (JsonValue.arr xs) = "l" ++ bencJsonList xs ++ "e") ∧
    (∀ (x : JsonValue) (xs : List JsonValue),
      bencJsonList (x :: xs) = bencJson x ++ bencJsonList xs) ∧
    (∀ kvs : List (String × JsonValue),
      bencJson (JsonValue.obj kvs) = "d" ++ bencJsonObj kvs ++ "e") ∧
    (∀ (k : String) (v : JsonValue) (rest : List (String × JsonValue)),
      bencJsonObj ((k, v) :: rest) = bencStr k ++ bencJson v ++ bencJsonObj rest) ∧
    bencJson (JsonValue.arr [JsonValue.num 42, JsonValue.num (-42), JsonValue.str "bar"]) =
      "li42ei-42e3:bare" ∧
    bencJson (JsonValue.obj [("b", JsonValue.num 1), ("a", JsonValue.num 2)]) =
      "d1:bi1e1:ai2ee" ∧
    serializeArgs (buildFrom
      [("foo", ArgValue.Json (JsonValue.arr
          [JsonValue.num 42, JsonValue.num (-42), JsonValue.str "bar"])),
       ("boo", ArgValue.Json (JsonValue.obj
          [("key1", JsonValue.str "baz"),
           ("key2", JsonValue.arr
             [JsonValue.str "Lorem", JsonValue.str "ipsum",
              JsonValue.obj [("dolor", JsonValue.arr
                [JsonValue.str "sit", JsonValue.str "amet"])]])]))]) =
      "d3:bood4:key13:baz4:key2l5:Lorem5:ipsumd5:dolorl3:sit4:ameteeee3:fooli42ei-42e3:baree" :=
  ⟨fun _ => rfl, fun _ _ => rfl, fun _ => rfl, fun _ _ _ => rfl, rfl, rfl, rfl⟩

/-! ### Equality of argument values (C7) -/

theorem jsonEqList_iff_of (as : List JsonValue)
    (h : ∀ x ∈ as, ∀ y : JsonValue, jsonEq x y = true ↔ JsonEquiv x y) :
    ∀ bs : List JsonValue, jsonEqList as bs = true ↔ JsonEquivList as bs := by
  induction as with
  | nil =>
    intro bs
    cases bs with
    | nil => exact iff_of_true rfl JsonEquivList.nil
    | cons y ys =>
      refine iff_of_false ?_ ?_
      · simp [jsonEqList]
      · intro hc; nomatch hc
  | cons x xs ih =>
    intro bs
    cases bs with
    | nil =>
      refine iff_of_false ?_ ?_
      · simp [jsonEqList]
      · intro hc; nomatch hc
    | cons y ys =>
      rw [show jsonEqList (x :: xs) (y :: ys) = (jsonEq x y && jsonEqList xs ys) from rfl,
        Bool.and_eq_true]
      constructor
      · rintro ⟨h1, h2⟩
        exact JsonEquivList.cons ((h x (List.mem_cons_self _ _) y).mp h1)
          ((ih (fun z hz => h z (List.mem_cons_of_mem _ hz)) ys).mp h2)
      · intro hc
        cases hc with
        | cons he hrest =>
          exact ⟨(h x (List.mem_cons_self _ _) y).mpr he,
            (ih (fun z hz => h z (List.mem_cons_of_mem _ hz)) ys).mpr hrest⟩

theorem jsonEqObjSub_iff_of (as : List (String × JsonValue))
    (h : ∀ kv ∈ as, ∀ y : JsonValue, jsonEq kv.2 y = true ↔ JsonEquiv kv.2 y) :
    ∀ bs : List (String × JsonValue), jsonEqObjSub as bs = true ↔ JsonEquivObjSub as bs := by
  induction as with
  | nil => exact fun bs => iff_of_true rfl JsonEquivObjSub.nil
  | cons kv rest ih =>
    obtain ⟨k, v⟩ := kv
    intro bs
    rw [show jsonEqObjSub ((k, v) :: rest) bs =
      ((match jlookup k bs with
        | some w => jsonEq v w
        | none => false) && jsonEqObjSub rest bs) from rfl, Bool.and_eq_true]
    constructor
    · rintro ⟨h1, h2⟩
      cases hl : jlookup k bs with
      | none => rw [hl] at h1; exact absurd h1 (by simp)
      | some w =>
        rw [hl] at h1
        exact JsonEquivObjSub.cons hl
          ((h (k, v) (List.mem_cons_self _ _) w).mp h1)
          ((ih (fun z hz => h z (List.mem_cons_of_mem _ hz)) bs).mp h2)
    · intro hc
      cases hc with
      | cons hl he hsub =>
        refine ⟨?_, (ih (fun z hz => h z (List.mem_cons_of_mem _ hz)) bs).mpr hsub⟩
        rw [hl]
        exact (h (k, v) (List.mem_cons_self _ _) _).mpr he

theorem sizeOf_lt_of_mem_json {x : JsonValue} {xs : List JsonValue}
    (hx : x ∈ xs) : sizeOf x < sizeOf (JsonValue.arr xs) := by
  have h1 : sizeOf x < sizeOf xs := List.sizeOf_lt_of_mem hx
  have h2 : sizeOf (JsonValue.arr xs) = 1 + sizeOf xs := by simp
  omega

theorem sizeOf_lt_of_mem_obj {k : String} {v : JsonValue}
    {kvs : List (String × JsonValue)} (hkv : (k, v) ∈ kvs) :
    sizeOf v < sizeOf (JsonValue.obj kvs) := by
  have h1 : sizeOf (k, v) < sizeOf kvs := List.sizeOf_lt_of_mem hkv
  have h2 : sizeOf (JsonValue.obj kvs) = 1 + sizeOf kvs := by simp
  have h3 : sizeOf (k, v) = 1 + sizeOf k + sizeOf v := by simp
  omega

theorem jsonEq_iff_aux :
    ∀ n : Nat, ∀ a b : JsonValue, sizeOf a ≤ n → (jsonEq a b = true ↔ JsonEquiv a b) := by
  intro n
  induction n using Nat.strong_induction_on with
  | _ n ih =>
    intro a b ha
    have helem : ∀ x : JsonValue, sizeOf x < sizeOf a →
        ∀ y : JsonValue, jsonEq x y = true ↔ JsonEquiv x y := by
      intro x hx y
      exact ih (sizeOf x) (Nat.lt_of_lt_of_le hx ha) x y (Nat.le_refl _)
    cases a with
    | null =>
      cases b with
      | null => exact iff_of_true rfl JsonEquiv.null
      | bool b => exact iff_of_false (by simp [jsonEq]) (fun hc => nomatch hc)
      | num n2 => exact iff_of_false (by simp [jsonEq]) (fun hc => nomatch hc)
      | str s => exact iff_of_false (by simp [jsonEq]) (fun hc => nomatch hc)
      | arr xs => exact iff_of_false (by simp [jsonEq]) (fun hc => nomatch hc)
      | obj kvs => exact iff_of_false (by simp [jsonEq]) (fun hc => nomatch hc)
    | bool b1 =>
      cases b with
      | bool b2 =>
        rw [show jsonEq (JsonValue.bool b1) (JsonValue.bool b2) = (b1 == b2) from rfl,
          beq_iff_eq]
        constructor
        · rintro rfl; exact JsonEquiv.bool b1
        · intro hc; cases hc; rfl
      | null => exact iff_of_false (by simp [jsonEq]) (fun hc => nomatch hc)
      | num n2 => exact iff_of_false (by simp [jsonEq]) (fun hc => nomatch hc)
      | str s => exact iff_of_false (by simp [jsonEq]) (fun hc => nomatch hc)
      | arr xs => exact iff_of_false (by simp [jsonEq]) (fun hc => nomatch hc)
      | obj kvs => exact iff_of_false (by simp [jsonEq]) (fun hc => nomatch hc)
    | num n1 =>
      cases b with
      | num n2 =>
        rw [show jsonEq (JsonValue.num n1) (JsonValue.num n2) = (n1 == n2) from rfl,
          beq_iff_eq]
        constructor
        · rintro rfl; exact JsonEquiv.num n1
        · intro hc; cases hc; rfl
      | null => exact iff_of_false (by simp [jsonEq]) (fun hc => nomatch hc)
      | bool b2 => exact iff_of_false (by simp [jsonEq]) (fun hc => nomatch hc)
      | str s => exact iff_of_false (by simp [jsonEq]) (fun hc => nomatch hc)
      | arr xs => exact iff_of_false (by simp [jsonEq]) (fun hc => nomatch hc)
      | obj kvs => exact iff_of_false (by simp [jsonEq]) (fun hc => nomatch hc)
    | str s1 =>
      cases b with
      | str s2 =>
        rw [show jsonEq (JsonValue.str s1) (JsonValue.str s2) = (s1 == s2) from rfl,
          beq_iff_eq]
        constructor
        · rintro rfl; exact JsonEquiv.str s1
        · intro hc; cases hc; rfl
      | null => exact iff_of_false (by simp [jsonEq]) (fun hc => nomatch hc)
      | bool b2 => exact iff_of_false (by simp [jsonEq]) (fun hc => nomatch hc)
      | num n2 => exact iff_of_false (by simp [jsonEq]) (fun hc => nomatch hc)
      | arr xs => exact iff_of_false (by simp [jsonEq]) (fun hc => nomatch hc)
      | obj kvs => exact iff_of_false (by simp [jsonEq]) (fun hc => nomatch hc)
    | arr xs =>
      cases b with
      | arr ys =>
        rw [show jsonEq (JsonValue.arr xs) (JsonValue.arr ys) = jsonEqList xs ys from rfl]
        have hiff := jsonEqList_iff_of xs
          (fun x hx y => helem x (sizeOf_lt_of_mem_json hx) y) ys
        constructor
        · intro h1; exact JsonEquiv.arr (hiff.mp h1)
        · intro hc
          cases hc with
          | arr hl => exact hiff.mpr hl
      | null => exact iff_of_false (by simp [jsonEq]) (fun hc => nomatch hc)
      | bool b2 => exact iff_of_false (by simp [jsonEq]) (fun hc => nomatch hc)
      | num n2 => exact iff_of_false (by simp [jsonEq]) (fun hc => nomatch hc)
      | str s2 => exact iff_of_false (by simp [jsonEq]) (fun hc => nomatch hc)
      | obj kvs => exact iff_of_false (by simp [jsonEq]) (fun hc => nomatch hc)
    | obj kvs =>
      cases b with
      | obj kvs2 =>
        rw [show jsonEq (JsonValue.obj kvs) (JsonValue.obj kvs2) =
          ((kvs.length == kvs2.length) && jsonEqObjSub kvs kvs2) from rfl,
          Bool.and_eq_true, beq_iff_eq]
        have hiff := jsonEqObjSub_iff_of kvs
          (fun kv hkv y => helem kv.2
            (by obtain ⟨k, v⟩ := kv; exact sizeOf_lt_of_mem_obj hkv) y) kvs2
        constructor
        · rintro ⟨h1, h2⟩; exact JsonEquiv.obj h1 (hiff.mp h2)
        · intro hc
          cases hc with
          | obj hlen hsub => exact ⟨hlen, hiff.mpr hsub⟩
      | null => exact iff_of_false (by simp [jsonEq]) (fun hc => nomatch hc)
      | bool b2 => exact iff_of_false (by simp [jsonEq]) (fun hc => nomatch hc)
      | num n2 => exact iff_of_false (by simp [jsonEq]) (fun hc => nomatch hc)
      | str s2 => exact iff_of_false (by simp [jsonEq]) (fun hc => nomatch hc)
      | arr ys => exact iff_of_false (by simp [jsonEq]) (fun hc => nomatch hc)

theorem jsonEq_iff (a b : JsonValue) : jsonEq a b = true ↔ JsonEquiv a b :=
  jsonEq_iff_aux (sizeOf a) a b (Nat.le_refl _)

/-- C7: two argument values are equal exactly when they carry the same variant
tag and structurally equal payloads (byte-exact for `Int` and `String`, deep
structural equality for the structured payload with mapping-key order
irrelevant); key order is nevertheless significant to the encoding, as the two
order-swapped mappings below show: equal as values, distinct as bytes. -/
theorem c7_equality_characterisation :
    (∀ a b : ArgValue, argValueEq a b = true ↔ ArgValueEquiv a b) ∧
    jsonEq (JsonValue.obj [("a", JsonValue.num 1), ("b", JsonValue.num 2)])
      (JsonValue.obj [("b", JsonValue.num 2), ("a", JsonValue.num 1)]) = true ∧
    bencJson (JsonValue.obj [("a", JsonValue.num 1), ("b", JsonValue.num 2)]) ≠
      bencJson (JsonValue.obj [("b", JsonValue.num 2), ("a", JsonValue.num 1)]) := by
  refine ⟨?_, rfl, by decide⟩
  intro a b
  cases a with
  | Int i1 =>
    cases b with
    | Int i2 =>
      rw [show argValueEq (ArgValue.Int i1) (ArgValue.Int i2) = (i1 == i2) from rfl,
        beq_iff_eq]
      constructor
      · rintro rfl; exact ArgValueEquiv.int i1
      · intro hc; cases hc; rfl
    | String s2 => exact iff_of_false (by simp [argValueEq]) (fun hc => nomatch hc)
    | Json j2 => exact iff_of_false (by simp [argValueEq]) (fun hc => nomatch hc)
  | String s1 =>
    cases b with
    | String s2 =>
      rw [show argValueEq (ArgValue.String s1) (ArgValue.String s2) = (s1 == s2) from rfl,
        beq_iff_eq]
      constructor
      · rintro rfl; exact ArgValueEquiv.str s1
      · intro hc; cases hc; rfl
    | Int i2 => exact iff_of_false (by simp [argValueEq]) (fun hc => nomatch hc)
    | Json j2 => exact iff_of_false (by simp [argValueEq]) (fun hc => nomatch hc)
  | Json j1 =>
    cases b with
    | Json j2 =>
      rw [show argValueEq (ArgValue.Json j1) (ArgValue.Json j2) = jsonEq j1 j2 from rfl]
      constructor
      · intro h1; exact ArgValueEquiv.json ((jsonEq_iff j1 j2).mp h1)
      · intro hc
        cases hc with
        | json he => exact (jsonEq_iff j1 j2).mpr he
    | Int i2 => exact iff_of_false (by simp [argValueEq]) (fun hc => nomatch hc)
    | String s2 => exact iff_of_false (by simp [argValueEq]) (fun hc => nomatch hc)

/-- Witness for C4: a concrete failing run propagates the sink's error
unchanged, the propagation disjunction holds there, and the bencode
instantiation succeeds on the same map. -/
theorem c4_error_propagation_witness :
    (failingSerializer.serializeMap (some 1) = Except.error 7 ∨
      (∃ st kv, kv ∈ (buildFrom [("a", ArgValue.Int 1)]).entries ∧
        serializeEntryStep failingSerializer st kv = Except.error 7) ∨
      (∃ st, failingSerializer.endMap st = Except.error 7)) ∧
    (∃ o, serializeArgValues bencMapSerializer (buildFrom [("a", ArgValue.Int 1)]) =
      Except.ok o) ∧
    serializeArgValues bencMapSerializer (buildFrom [("a", ArgValue.Int 1)]) =
      Except.ok (serializeArgs (buildFrom [("a", ArgValue.Int 1)])) :=
  ⟨(c4_error_propagation failingSerializer (buildFrom [("a", ArgValue.Int 1)])).2.1 7 rfl,
   (c4_error_propagation bencMapSerializer (buildFrom [("a", ArgValue.Int 1)])).1
     (fun _ => ⟨"d", rfl⟩)
     (fun st kv hkv => by
       rcases List.mem_singleton.mp hkv with rfl
       exact ⟨st ++ bencStr "a" ++ bencInt 1, rfl⟩)
     (fun st => ⟨st ++ "e", rfl⟩),
   (c4_error_propagation failingSerializer (buildFrom [("a", ArgValue.Int 1)])).2.2⟩

